import Mathlib

/-!
# YokelGraph — shallow embedding and verification

Shallow embedding of `yokel::graph_c<NODE_ID_TYPE, EDGE_DATA>` from
`src/include/YokelGraph/Graph.hpp`, together with proofs settling the
frozen claims about the repository's specification.

Modelling conventions:
* Node identifiers are modelled as `Nat` (the repository instantiates the
  template at `std::string`; identifiers are opaque values with equality
  and hashing, so any countable carrier is faithful).
* `std::hash<NODE_ID_TYPE>` is an unspecified function into `size_t`; it is
  modelled as an explicit parameter `h : Nat → Nat`, reduced mod `2^64`
  where the C++ code computes in `size_t`.
* `std::map<K,V>` iterates in ascending key order; `_node_storage` is
  modelled as a sorted `List Nat` of identifiers plus a function giving
  each node's outgoing list, `_edge_storage` as a function from merged key
  to payload (it is never iterated), and `_cache` as an association list
  (it is iterated by `optimize_trace`, which only reads its length and the
  multiset of entry sizes, so exact ordering is irrelevant).
* The per-node `marked` flag of `node_s` is modelled as a function
  `Nat → Bool` threaded through the recursive search.
* The recursive member `find` is modelled with explicit fuel; a separate
  theorem shows the fuel `|nodes| + 1` used by `trace` can never run out,
  so the fuel-exhaustion branch is dead code of the model.
* The `reservation` size hint only pre-sizes `std::vector` capacity in the
  C++ code and has no observable effect; it is dropped.
-/

namespace YokelGraph

/-- `2^64`, the modulus of `std::size_t` arithmetic. -/
def W : Nat := 2 ^ 64

/-- `graph_c::merge_ids`: `std::hash{}(from) ^ (std::hash{}(to) << 1)`,
computed in `size_t` arithmetic. -/
def merge_ids (h : Nat → Nat) (a b : Nat) : Nat :=
  (h a % W) ^^^ ((h b % W) <<< 1 % W)

/-- The identity hash, used to instantiate concrete scenarios (identifiers
`A..I` are encoded as `0..8`). -/
def hId : Nat → Nat := fun x => x

/-- A constant (everywhere-colliding) hash, a legal instantiation of
`std::hash` used to witness collision behaviour. -/
def hZero : Nat → Nat := fun _ => 0

/-- The per-node `marked` flags of the stored `node_s` records. -/
abbrev Marks := Nat → Bool

/-- Set a node's `marked` flag (`node.marked = true`). -/
def mset (fr : Nat) (m : Marks) : Marks :=
  fun x => if x = fr then true else m x

/-- Clear a node's `marked` flag (`node.marked = false`). -/
def mclear (fr : Nat) (m : Marks) : Marks :=
  fun x => if x = fr then false else m x

/-- Clear the `marked` flag of every node on a path: the
`for(auto*x : current_path) x->marked = false;` loop in `find`. -/
def mclearList (p : List Nat) (m : Marks) : Marks :=
  fun x => if x ∈ p then false else m x

/-- The best-of-siblings selection at the end of `find`: scan the collected
sub-paths keeping the first one of strictly smallest size. -/
def pickShortest : List (List Nat) → Option (List Nat)
  | [] => none
  | p :: rest =>
      some (rest.foldl (fun acc q => if q.length < acc.length then q else acc) p)

/-- The neighbour loop of `find`: run `step` (the recursive search) on each
outgoing neighbour in order, collecting every successful sub-path and
clearing the `marked` flags of each successful sub-path's nodes (on failure
`current_path` is empty, so nothing is cleared). `none` signals fuel
exhaustion of the model. -/
def goNeighbors (step : Nat → Marks → Option (Option (List Nat) × Marks)) :
    List Nat → Marks → Option (List (List Nat) × Marks)
  | [], m => some ([], m)
  | nb :: rest, m =>
      match step nb m with
      | none => none
      | some (some p, m1) =>
          match goNeighbors step rest (mclearList p m1) with
          | none => none
          | some (subs, mf) => some (p :: subs, mf)
      | some (none, m1) =>
          match goNeighbors step rest m1 with
          | none => none
          | some (subs, mf) => some (subs, mf)

/-- One unfolding of `graph_c::find` with `rec` standing for the recursive
call: refuse a marked node, succeed immediately on the target, otherwise
mark the node, search all neighbours, unmark, and either fail (discarding
the node) or prepend the node to the shortest collected sub-path. -/
def findFStep (out : Nat → List Nat) (tgt : Nat)
    (rec : Nat → Marks → Option (Option (List Nat) × Marks))
    (fr : Nat) (m : Marks) : Option (Option (List Nat) × Marks) :=
  if m fr then some (none, m)
  else if fr = tgt then some (some [fr], m)
  else
    match goNeighbors rec (out fr) (mset fr m) with
    | none => none
    | some (subs, m2) =>
        match pickShortest subs with
        | none => some (none, mclear fr m2)
        | some best => some (some (fr :: best), mclear fr m2)

/-- `graph_c::find`, with explicit fuel bounding the recursion depth.
The result path is the suffix `find` appends to its `path` argument (on
failure it pops everything it pushed, so the argument is returned intact;
its prior contents are never read). -/
def findF (out : Nat → List Nat) (tgt : Nat) :
    Nat → Nat → Marks → Option (Option (List Nat) × Marks)
  | 0 => fun _ _ => none
  | fuel + 1 => findFStep out tgt (findF out tgt fuel)

/-- The observable state of a `graph_c<NODE_ID_TYPE, EDGE_DATA>` instance.
`nodes` (sorted ascending) plus `outs`/`marked` model `_node_storage`;
`edges` models `_edge_storage`; the remaining fields are the members of the
same name. -/
structure Graph (α : Type) where
  containsCycles : Bool
  nodes : List Nat
  outs : Nat → List Nat
  marked : Marks
  edges : Nat → Option α
  cacheEnabled : Bool
  averagePathLen : Nat
  cache : List (Nat × List Nat)

/-- A default-constructed `graph_c` (cache enabled). -/
def initGraph (α : Type) : Graph α :=
  { containsCycles := false
    nodes := []
    outs := fun _ => []
    marked := fun _ => false
    edges := fun _ => none
    cacheEnabled := true
    averagePathLen := 0
    cache := [] }

/-- `_cache.find(k)` on the association-list model of `std::map`. -/
def lookupCache (k : Nat) : List (Nat × List Nat) → Option (List Nat)
  | [] => none
  | (k1, v1) :: rest => if k1 = k then some v1 else lookupCache k rest

/-- `_cache[k] = v` on the association-list model of `std::map`
(replace an existing entry, otherwise add one). -/
def insertCache (k : Nat) (v : List Nat) :
    List (Nat × List Nat) → List (Nat × List Nat)
  | [] => [(k, v)]
  | (k1, v1) :: rest =>
      if k1 = k then (k, v) :: rest else (k1, v1) :: insertCache k v rest

/-- `graph_c::add_node`: reject a duplicate identifier, otherwise clear the
cache, store a fresh node (empty outgoing list, unmarked) and reset the
cycles flag. -/
def add_node {α : Type} (g : Graph α) (id : Nat) : Bool × Graph α :=
  if id ∈ g.nodes then (false, g)
  else
    (true,
      { g with
        cache := []
        nodes := List.orderedInsert (· ≤ ·) id g.nodes
        outs := fun x => if x = id then [] else g.outs x
        marked := fun x => if x = id then false else g.marked x
        containsCycles := false })

/-- `graph_c::add_edge`: reject an absent `to`, an absent `from`, or a
duplicate merged key; otherwise clear the cache, append `to` to `from`'s
outgoing list, record the payload under the merged key and reset the
cycles flag. -/
def add_edge {α : Type} (h : Nat → Nat) (g : Graph α)
    (fr tgt : Nat) (d : α) : Bool × Graph α :=
  if tgt ∉ g.nodes then (false, g)
  else if fr ∉ g.nodes then (false, g)
  else if (g.edges (merge_ids h fr tgt)).isSome then (false, g)
  else
    (true,
      { g with
        cache := []
        outs := fun x => if x = fr then g.outs fr ++ [tgt] else g.outs x
        edges := fun k => if k = merge_ids h fr tgt then some d else g.edges k
        containsCycles := false })

/-- `graph_c::clear_cache`. -/
def clear_cache {α : Type} (g : Graph α) : Graph α :=
  { g with cache := [] }

/-- `graph_c::toggle_cache`. -/
def toggle_cache {α : Type} (g : Graph α) (b : Bool) : Graph α :=
  { g with cacheEnabled := b, cache := [] }

/-- `graph_c::optimize_trace`: fail if caching is off or the cache is
empty; otherwise set `_average_path_len` to
`std::ceil(total_paths_len / _cache.size())`. Both operands are `size_t`,
so the division truncates before `std::ceil` sees it: the stored value is
the floor, not the ceiling, of the average. -/
def optimize_trace {α : Type} (g : Graph α) : Bool × Graph α :=
  if !g.cacheEnabled || g.cache.isEmpty then (false, g)
  else
    (true,
      { g with
        averagePathLen :=
          (g.cache.foldl (fun acc e => acc + e.2.length) 0) / g.cache.length })

/-- `graph_c::trace`: check both endpoints exist, consult the cache when
enabled, otherwise run `find` and cache a successful result. `trace` calls
`find` with fuel `|nodes| + 1`, which is proved sufficient below. -/
def trace {α : Type} (h : Nat → Nat) (g : Graph α) (fr tgt : Nat) :
    Option (List Nat) × Graph α :=
  if tgt ∉ g.nodes then (none, g)
  else if fr ∉ g.nodes then (none, g)
  else
    match (if g.cacheEnabled then lookupCache (merge_ids h fr tgt) g.cache
           else none) with
    | some p => (some p, g)
    | none =>
        match findF g.outs tgt (g.nodes.length + 1) fr g.marked with
        | none => (none, g)
        | some (res, m1) =>
            match res with
            | none => (none, { g with marked := m1 })
            | some p =>
                if g.cacheEnabled then
                  (some p,
                    { g with
                      marked := m1
                      cache := insertCache (merge_ids h fr tgt) p g.cache })
                else (some p, { g with marked := m1 })

/-- The loop body of `graph_c::load_edges`: look up each consecutive pair's
edge, failing the whole request on the first missing edge. -/
def loadEdgesGo {α : Type} (h : Nat → Nat) (edges : Nat → Option α) :
    List Nat → Option (List α)
  | [] => some []
  | [_] => some []
  | a :: b :: rest =>
      match edges (merge_ids h a b) with
      | none => none
      | some d =>
          match loadEdgesGo h edges (b :: rest) with
          | none => none
          | some ds => some (d :: ds)

/-- `graph_c::load_edges`: fail on a path shorter than two nodes, otherwise
resolve every crossed edge's payload. The method never mutates the graph;
the state is returned unchanged to make that explicit. -/
def load_edges {α : Type} (h : Nat → Nat) (g : Graph α) (p : List Nat) :
    Option (List α) × Graph α :=
  (if p.length < 2 then none else loadEdgesGo h g.edges p, g)

/-- The inner loop of `graph_c::contains_cycles`: trace from each outgoing
neighbour back to the node, stopping at the first success. -/
def scanOuts {α : Type} (h : Nat → Nat) (idn : Nat) :
    List Nat → Graph α → Bool × Graph α
  | [], g => (false, g)
  | nb :: rest, g =>
      match trace h g nb idn with
      | (some _, g1) => (true, g1)
      | (none, g1) => scanOuts h idn rest g1

/-- The outer loop of `graph_c::contains_cycles` over `_node_storage` in
key order. -/
def scanNodes {α : Type} (h : Nat → Nat) :
    List Nat → Graph α → Bool × Graph α
  | [], g => (false, g)
  | idn :: rest, g =>
      match scanOuts h idn (g.outs idn) g with
      | (true, g1) => (true, g1)
      | (false, g1) => scanNodes h rest g1

/-- `graph_c::contains_cycles`: report a memoized `true` immediately,
otherwise scan every edge for back-reachability, memoizing a positive
result. -/
def contains_cycles {α : Type} (h : Nat → Nat) (g : Graph α) :
    Bool × Graph α :=
  if g.containsCycles then (true, g)
  else
    match scanNodes h g.nodes g with
    | (true, g1) => (true, { g1 with containsCycles := true })
    | (false, g1) => (false, g1)

/-- The node loop of `graph_c::build_from` (abort on first failure). -/
def addNodesAll {α : Type} : List Nat → Graph α → Bool × Graph α
  | [], g => (true, g)
  | n :: rest, g =>
      match add_node g n with
      | (false, g1) => (false, g1)
      | (true, g1) => addNodesAll rest g1

/-- The edge loop of `graph_c::build_from` (abort on first failure). -/
def addEdgesAll {α : Type} (h : Nat → Nat) :
    List (Nat × Nat × α) → Graph α → Bool × Graph α
  | [], g => (true, g)
  | e :: rest, g =>
      match add_edge h g e.1 e.2.1 e.2.2 with
      | (false, g1) => (false, g1)
      | (true, g1) => addEdgesAll h rest g1

/-- `graph_c::build_from`: all nodes, then all edges, aborting on the
first failure. -/
def build_from {α : Type} (h : Nat → Nat) (g : Graph α)
    (ns : List Nat) (es : List (Nat × Nat × α)) : Bool × Graph α :=
  match addNodesAll ns g with
  | (false, g1) => (false, g1)
  | (true, g1) => addEdgesAll h es g1

/-- A single mutation of the public API (the only two mutating calls). -/
inductive AddOp (α : Type) where
  | node (id : Nat)
  | edge (fr tgt : Nat) (d : α)

/-- Apply one mutation, keeping the resulting state (the Boolean result is
dropped: failed calls leave the state unchanged). -/
def applyAdd {α : Type} (h : Nat → Nat) (op : AddOp α) (g : Graph α) :
    Graph α :=
  match op with
  | .node id => (add_node g id).2
  | .edge fr tgt d => (add_edge h g fr tgt d).2

/-- Apply a sequence of mutations in order. -/
def applyAdds {α : Type} (h : Nat → Nat) : List (AddOp α) → Graph α → Graph α
  | [], g => g
  | op :: rest, g => applyAdds h rest (applyAdd h op g)

/-- The value the Tracer computes on the current store, bypassing the
cache: the guards of `trace` followed by a bare `find`. This is the value
`trace` returns when caching is disabled. (It does not depend on the hash:
the hash only forms cache and edge-store keys.) -/
def uncachedTrace {α : Type} (g : Graph α) (fr tgt : Nat) :
    Option (List Nat) :=
  if tgt ∉ g.nodes then none
  else if fr ∉ g.nodes then none
  else
    match findF g.outs tgt (g.nodes.length + 1) fr g.marked with
    | none => none
    | some (res, _) => res

/-! ## State predicates -/

/-- Every node's visiting marker is clear (the state between public calls,
per the spec's marker invariant). -/
def AllClear {α : Type} (g : Graph α) : Prop := ∀ x, g.marked x = false

/-- Structural well-formedness of the node store, true of every state the
public API can construct: identifiers are unique, outgoing lists point at
stored nodes, and absent identifiers have no outgoing list. -/
def Inv {α : Type} (g : Graph α) : Prop :=
  g.nodes.Nodup ∧ (∀ x y, y ∈ g.outs x → y ∈ g.nodes) ∧
    (∀ x, x ∉ g.nodes → g.outs x = [])

/-- Every out-list entry has its edge payload stored under the merged key —
established by `add_edge`, which records both together. -/
def EdgesOut {α : Type} (h : Nat → Nat) (g : Graph α) : Prop :=
  ∀ a b, b ∈ g.outs a → (g.edges (merge_ids h a b)).isSome = true

/-- Every cache entry is the Tracer's own result, on the current store, for
some stored pair of nodes whose merged key is the entry's key — the
invariant `trace` maintains and every mutation re-establishes by clearing
the cache. -/
def CacheOK {α : Type} (h : Nat → Nat) (g : Graph α) : Prop :=
  ∀ k p, lookupCache k g.cache = some p →
    ∃ f t, f ∈ g.nodes ∧ t ∈ g.nodes ∧ merge_ids h f t = k ∧
      uncachedTrace g f t = some p

/-- Reachability exactly as `find` explores it: a node is reachable from
itself when unmarked, and from an unmarked non-target node through any
outgoing neighbour after marking it. -/
inductive Reach (out : Nat → List Nat) (tgt : Nat) : Marks → Nat → Prop where
  | done (m : Marks) : m tgt = false → Reach out tgt m tgt
  | step (m : Marks) (fr nb : Nat) : m fr = false → fr ≠ tgt → nb ∈ out fr →
      Reach out tgt (mset fr m) nb → Reach out tgt m fr

/-- The store contains a cycle: some stored edge whose head can reach its
tail. -/
def HasCycle {α : Type} (g : Graph α) : Prop :=
  ∃ idn nb, idn ∈ g.nodes ∧ nb ∈ g.outs idn ∧
    Reach g.outs idn (fun _ => false) nb

/-! ## Concrete states used by witnesses and counterexamples

All are built through the public API from a default-constructed graph.
`hId` plays the hash; `hPow x = 2^(2*x)` is an injective spread whose
merged keys are collision-free on small identifiers, standing in for a
hash with no collisions among the identifiers in play (as `std::hash` on
the test suite's nine strings behaves). -/

/-- A spread hash: merged keys `2^(2a) ^^^ 2^(2b+1)` are pairwise distinct
for small identifiers. -/
def hPow : Nat → Nat := fun x => 2 ^ (2 * x)

/-- Nodes `0,1,2`, edges `0→1` and `0→2`; then `trace 0 1` fills the cache
with the path `[0,1]` under key `merge_ids hId 0 1 = 2`. -/
def gPoison : Graph String :=
  (trace hId
    (build_from hId (initGraph String) [0, 1, 2] [(0, 1, "a"), (0, 2, "b")]).2
    0 1).2

/-- Nodes `0,1,3`, edge `3→0`; then `trace 3 0` fills the cache with the
path `[3,0]` under key `merge_ids hId 3 0 = 3 = merge_ids hId 1 1`. -/
def gSelfPoison : Graph String :=
  (trace hId
    (build_from hId (initGraph String) [0, 1, 3] [(3, 0, "c")]).2
    3 0).2

/-- Nodes `0,1,2`, edges `0→1`, `1→2`, after tracing `0→1` (length 2) and
`0→2` (length 3): a cache whose entry lengths sum to 5 over 2 entries. -/
def gOpt : Graph String :=
  (trace hId
    (trace hId
      (build_from hId (initGraph String) [0, 1, 2]
        [(0, 1, "x"), (1, 2, "y")]).2
      0 1).2
    0 2).2

/-- A single stored node `0`. -/
def gSingle : Graph String := (add_node (initGraph String) 0).2

/-- Nodes `0,1` with the single edge `0→1`. -/
def gEdge01 : Graph String :=
  (build_from hId (initGraph String) [0, 1] [(0, 1, "d")]).2

/-- Nodes `0,1` (no edges) under the constant hash. -/
def gTwo : Graph String :=
  (build_from hZero (initGraph String) [0, 1] []).2

/-- Nodes `0,1` with the two-cycle `0→1`, `1→0`. -/
def gCyc : Graph String :=
  (build_from hId (initGraph String) [0, 1] [(0, 1, "f"), (1, 0, "g")]).2

/-- A small literal state: nodes `0,1`, edge `0→1` stored under key
`merge_ids hId 0 1 = 2` with payload `"d"`, clear markers, empty cache —
the state `build_from` produces for that input. Used as a witness input. -/
def gLit : Graph String :=
  { containsCycles := false
    nodes := [0, 1]
    outs := fun x => if x = 0 then [1] else []
    marked := fun _ => false
    edges := fun k => if k = 2 then some "d" else none
    cacheEnabled := true
    averagePathLen := 0
    cache := [] }

/-- A literal two-cycle state: nodes `0,1`, edges `0→1` (key 2) and `1→0`
(key 1), clear markers, empty cache. Used as a witness input. -/
def gCycLit : Graph String :=
  { containsCycles := false
    nodes := [0, 1]
    outs := fun x => if x = 0 then [1] else if x = 1 then [0] else []
    marked := fun _ => false
    edges := fun k => if k = 2 then some "f" else if k = 1 then some "g" else none
    cacheEnabled := true
    averagePathLen := 0
    cache := [] }

/-- §8 scenario 1: nodes `A..I` (encoded `0..8`) and the twelve labelled
edges, inserted in the given order. -/
def gScenario : Graph String :=
  (build_from hPow (initGraph String) [0, 1, 2, 3, 4, 5, 6, 7, 8]
    [(0, 5, "A->F"), (0, 3, "A->D"), (0, 1, "A->B"), (3, 0, "D->A"),
     (3, 5, "D->F"), (5, 6, "F->G"), (6, 7, "G->H"), (7, 4, "H->E"),
     (4, 2, "E->C"), (2, 1, "C->B"), (1, 8, "B->I"), (1, 4, "B->E")]).2

/-! ## The best-of-siblings pick -/

/-- The `idx`/`smallest` scan keeps an element of the candidate list. -/
theorem pickShortest_mem :
    ∀ (l : List (List Nat)) (b : List Nat), pickShortest l = some b → b ∈ l := by
  have aux : ∀ (rest : List (List Nat)) (acc : List Nat),
      rest.foldl (fun acc q => if q.length < acc.length then q else acc) acc
        ∈ acc :: rest := by
    intro rest
    induction rest with
    | nil => intro acc; simp
    | cons q rest ih =>
      intro acc
      simp only [List.foldl_cons]
      have h2 := ih (if q.length < acc.length then q else acc)
      have hin : (if q.length < acc.length then q else acc) ∈ acc :: q :: rest := by
        by_cases hc : q.length < acc.length <;> simp [hc]
      rcases List.mem_cons.mp h2 with h | h
      · rw [h]; exact hin
      · exact List.mem_cons_of_mem _ (List.mem_cons_of_mem _ h)
  intro l b hp
  cases l with
  | nil => simp [pickShortest] at hp
  | cons p rest =>
    simp only [pickShortest, Option.some.injEq] at hp
    rw [← hp]
    exact aux rest p

/-- A nonempty candidate list always yields a pick. -/
theorem pickShortest_isSome (l : List (List Nat)) (hl : l ≠ []) :
    ∃ b, pickShortest l = some b := by
  cases l with
  | nil => exact absurd rfl hl
  | cons p rest => exact ⟨_, rfl⟩

/-! ## Marker discipline of `find`

`find` returns with exactly the marks it was called with: its own node is
unmarked on every exit path, every recursive call restores marks by
induction, and the explicit clearing loop only touches nodes that were
already unmarked (every node of a returned sub-path passed the marked
check against a superset of the entry marks). -/

/-- The neighbour loop preserves marks and only collects sub-paths of
entry-unmarked nodes, provided the recursive step does. -/
theorem goNeighbors_marks
    (step : Nat → Marks → Option (Option (List Nat) × Marks))
    (H : ∀ nb m r m', step nb m = some (r, m') →
      m' = m ∧ ∀ p, r = some p → ∀ x ∈ p, m x = false) :
    ∀ (l : List Nat) (m : Marks) (subs : List (List Nat)) (mf : Marks),
      goNeighbors step l m = some (subs, mf) →
      mf = m ∧ ∀ p ∈ subs, ∀ x ∈ p, m x = false := by
  intro l
  induction l with
  | nil =>
    intro m subs mf hg
    simp only [goNeighbors, Option.some.injEq, Prod.mk.injEq] at hg
    obtain ⟨h1, h2⟩ := hg
    exact ⟨h2.symm, by rw [← h1]; simp⟩
  | cons nb rest ih =>
    intro m subs mf hg
    simp only [goNeighbors] at hg
    split at hg
    · cases hg
    · rename_i p m1 heq
      split at hg
      · cases hg
      · rename_i subs1 mf1 heq2
        simp only [Option.some.injEq, Prod.mk.injEq] at hg
        obtain ⟨h1, h2⟩ := hg
        obtain ⟨hm1, hpth⟩ := H nb m (some p) m1 heq
        have hpm : ∀ x ∈ p, m x = false := hpth p rfl
        have hcl : mclearList p m1 = m := by
          funext x
          by_cases hx : x ∈ p
          · simp only [mclearList, if_pos hx]
            exact (hpm x hx).symm
          · simp only [mclearList, if_neg hx, hm1]
        rw [hcl] at heq2
        obtain ⟨hmf1, hsub⟩ := ih m subs1 mf1 heq2
        refine ⟨by rw [← h2]; exact hmf1, ?_⟩
        rw [← h1]
        intro q hq x hxq
        rcases List.mem_cons.mp hq with hqp | hq1
        · exact hpm x (hqp ▸ hxq)
        · exact hsub q hq1 x hxq
    · rename_i m1 heq
      obtain ⟨hm1, _⟩ := H nb m none m1 heq
      rw [hm1] at hg
      split at hg
      · cases hg
      · rename_i subs1 mf1 heq2
        simp only [Option.some.injEq, Prod.mk.injEq] at hg
        obtain ⟨h1, h2⟩ := hg
        obtain ⟨hmf1, hsub⟩ := ih m subs1 mf1 heq2
        exact ⟨by rw [← h2]; exact hmf1, by rw [← h1]; exact hsub⟩

/-- `find` restores the marks it was called with, and every node of a
returned path was unmarked at entry. -/
theorem findF_marks (out : Nat → List Nat) (tgt : Nat) :
    ∀ (fuel fr : Nat) (m : Marks) (r : Option (List Nat)) (m' : Marks),
      findF out tgt fuel fr m = some (r, m') →
      m' = m ∧ ∀ p, r = some p → ∀ x ∈ p, m x = false := by
  intro fuel
  induction fuel with
  | zero => intro fr m r m' hf; cases hf
  | succ fuel ih =>
    intro fr m r m' hf
    simp only [findF, findFStep] at hf
    split at hf
    · rename_i hm
      simp only [Option.some.injEq, Prod.mk.injEq] at hf
      obtain ⟨h1, h2⟩ := hf
      exact ⟨h2.symm, fun p hp => by rw [← h1] at hp; cases hp⟩
    · rename_i hm
      have hmf : m fr = false := by simpa using hm
      split at hf
      · rename_i htg
        simp only [Option.some.injEq, Prod.mk.injEq] at hf
        obtain ⟨h1, h2⟩ := hf
        refine ⟨h2.symm, ?_⟩
        intro p hp x hx
        rw [← h1] at hp
        have hpe : p = [fr] := by injection hp with h3; exact h3.symm
        subst hpe
        simp only [List.mem_singleton] at hx
        subst hx
        exact hmf
      · rename_i htg
        split at hf
        · cases hf
        · rename_i subs m2 hg
          obtain ⟨hm2, hsubs⟩ :=
            goNeighbors_marks _ (fun nb mm rr mm' hh => ih nb mm rr mm' hh)
              (out fr) (mset fr m) subs m2 hg
          have hmc : mclear fr m2 = m := by
            funext x
            by_cases hx : x = fr
            · subst hx
              simp only [mclear, if_pos rfl]
              exact hmf.symm
            · simp only [mclear, if_neg hx, hm2, mset, if_neg hx]
          split at hf
          · simp only [Option.some.injEq, Prod.mk.injEq] at hf
            obtain ⟨h1, h2⟩ := hf
            exact ⟨by rw [← h2]; exact hmc,
              fun p hp => by rw [← h1] at hp; cases hp⟩
          · rename_i best hps
            simp only [Option.some.injEq, Prod.mk.injEq] at hf
            obtain ⟨h1, h2⟩ := hf
            refine ⟨by rw [← h2]; exact hmc, ?_⟩
            intro p hp x hx
            rw [← h1] at hp
            have hpe : p = fr :: best := by injection hp with h3; exact h3.symm
            subst hpe
            rcases List.mem_cons.mp hx with hxf | hxb
            · subst hxf; exact hmf
            · have hbm : best ∈ subs := pickShortest_mem subs best hps
              have hxm := hsubs best hbm x hxb
              simp only [mset] at hxm
              by_cases hxr : x = fr
              · rw [if_pos hxr] at hxm; cases hxm
              · rw [if_neg hxr] at hxm; exact hxm

/-! ## Fuel sufficiency

`trace` calls `find` with fuel `|nodes| + 1`. Each recursion level marks
one more stored, previously unmarked node, so the number of unmarked
stored nodes bounds the depth and the fuel never runs out. -/

/-- The neighbour loop cannot exhaust fuel if no single step can. -/
theorem goNeighbors_ne_none
    (step : Nat → Marks → Option (Option (List Nat) × Marks))
    (H : ∀ nb m r m', step nb m = some (r, m') →
      m' = m ∧ ∀ p, r = some p → ∀ x ∈ p, m x = false) :
    ∀ (l : List Nat) (m : Marks), (∀ nb ∈ l, step nb m ≠ none) →
      goNeighbors step l m ≠ none := by
  intro l
  induction l with
  | nil => intro m _; simp [goNeighbors]
  | cons nb rest ih =>
    intro m hall
    have hnb := hall nb (List.mem_cons_self nb rest)
    have hrest : goNeighbors step rest m ≠ none :=
      ih m (fun x hx => hall x (List.mem_cons_of_mem _ hx))
    cases hstep : step nb m with
    | none => exact absurd hstep hnb
    | some rm =>
      obtain ⟨r, m1⟩ := rm
      obtain ⟨hm1, hpth⟩ := H nb m r m1 hstep
      subst hm1
      cases r with
      | some p =>
        have hcl : mclearList p m1 = m1 := by
          funext x
          by_cases hx : x ∈ p
          · simp only [mclearList, if_pos hx]
            exact (hpth p rfl x hx).symm
          · simp only [mclearList, if_neg hx]
        simp only [goNeighbors, hstep, hcl]
        cases hrec : goNeighbors step rest m1 with
        | none => exact absurd hrec hrest
        | some sm => obtain ⟨a, b⟩ := sm; simp
      | none =>
        simp only [goNeighbors, hstep]
        cases hrec : goNeighbors step rest m1 with
        | none => exact absurd hrec hrest
        | some sm => obtain ⟨a, b⟩ := sm; simp

/-- Marking one stored, unmarked node decreases the unmarked count by
exactly one. -/
theorem filter_length_mset :
    ∀ (nodes : List Nat), nodes.Nodup → ∀ fr ∈ nodes, ∀ (m : Marks),
      m fr = false →
      (nodes.filter fun x => !(mset fr m x)).length + 1 =
        (nodes.filter fun x => !(m x)).length := by
  intro nodes
  induction nodes with
  | nil => intro _ fr hfr; cases hfr
  | cons a l ih =>
    intro hnd fr hfr m hm
    obtain ⟨hal, hl⟩ := List.nodup_cons.mp hnd
    by_cases haf : a = fr
    · subst haf
      have h1 : (!(mset a m a)) = false := by simp [mset]
      have h2 : (!(m a)) = true := by simp [hm]
      rw [List.filter_cons, List.filter_cons, h1, h2]
      have hc : List.filter (fun x => !(mset a m x)) l =
          List.filter (fun x => !(m x)) l := by
        apply List.filter_congr
        intro x hx
        have hxa : x ≠ a := fun he => hal (he ▸ hx)
        simp [mset, hxa]
      simp [hc]
    · have hfl : fr ∈ l := by
        rcases List.mem_cons.mp hfr with h | h
        · exact absurd h.symm haf
        · exact h
      have hma : (!(mset fr m a)) = (!(m a)) := by simp [mset, haf]
      rw [List.filter_cons, List.filter_cons, hma]
      have hrec := ih hl fr hfl m hm
      by_cases hba : (!(m a)) = true
      · rw [if_pos hba, if_pos hba]
        simp only [List.length_cons]
        omega
      · rw [if_neg hba, if_neg hba]
        exact hrec

/-- With fuel exceeding the number of unmarked stored nodes, `find` cannot
exhaust it; in particular the fuel `|nodes| + 1` used by `trace` always
suffices. Requires only that out-lists point at stored nodes. -/
theorem findF_ne_none (nodes : List Nat) (out : Nat → List Nat) (tgt : Nat)
    (hnd : nodes.Nodup) (hcl : ∀ x y, y ∈ out x → y ∈ nodes) :
    ∀ (fuel fr : Nat) (m : Marks), fr ∈ nodes →
      (nodes.filter fun x => !(m x)).length < fuel →
      findF out tgt fuel fr m ≠ none := by
  intro fuel
  induction fuel with
  | zero => intro fr m _ hlt; exact absurd hlt (Nat.not_lt_zero _)
  | succ fuel ih =>
    intro fr m hfr hlt
    simp only [findF, findFStep]
    by_cases hm : m fr = true
    · rw [if_pos hm]; simp
    · have hmf : m fr = false := by simpa using hm
      by_cases htg : fr = tgt
      · rw [if_neg hm, if_pos htg]; simp
      · rw [if_neg hm, if_neg htg]
        have hgn : goNeighbors (findF out tgt fuel) (out fr) (mset fr m) ≠ none := by
          apply goNeighbors_ne_none _ (findF_marks out tgt fuel)
          intro nb hnb
          apply ih nb (mset fr m) (hcl fr nb hnb)
          have heq := filter_length_mset nodes hnd fr hfr m hmf
          omega
        cases hgr : goNeighbors (findF out tgt fuel) (out fr) (mset fr m) with
        | none => exact absurd hgr hgn
        | some sm =>
          obtain ⟨subs, m2⟩ := sm
          simp only [hgr]
          cases pickShortest subs <;> simp

/-- If some listed neighbour's step succeeds from the loop's entry marks,
the collected sub-path list is nonempty. -/
theorem goNeighbors_sub_ne_nil
    (step : Nat → Marks → Option (Option (List Nat) × Marks))
    (H : ∀ nb m r m', step nb m = some (r, m') →
      m' = m ∧ ∀ p, r = some p → ∀ x ∈ p, m x = false) :
    ∀ (l : List Nat) (m : Marks) (subs : List (List Nat)) (mf : Marks),
      goNeighbors step l m = some (subs, mf) →
      ∀ nb ∈ l, (∃ p m1, step nb m = some (some p, m1)) → subs ≠ [] := by
  intro l
  induction l with
  | nil => intro m subs mf _ nb hnb; cases hnb
  | cons a rest ih =>
    intro m subs mf hg nb hnb hex
    simp only [goNeighbors] at hg
    split at hg
    · cases hg
    · rename_i p m1 heq
      split at hg
      · cases hg
      · rename_i subs1 mf1 heq2
        simp only [Option.some.injEq, Prod.mk.injEq] at hg
        obtain ⟨h1, h2⟩ := hg
        rw [← h1]
        simp
    · rename_i m1 heq
      obtain ⟨hm1, _⟩ := H a m none m1 heq
      rw [hm1] at hg
      split at hg
      · cases hg
      · rename_i subs1 mf1 heq2
        simp only [Option.some.injEq, Prod.mk.injEq] at hg
        obtain ⟨h1, h2⟩ := hg
        rcases List.mem_cons.mp hnb with hna | hnr
        · obtain ⟨p, m1', hex'⟩ := hex
          rw [hna] at hex'
          rw [heq] at hex'
          simp at hex'
        · rw [← h1]
          exact ih m subs1 mf1 heq2 nb hnr hex

/-- DFS completeness: whatever `find` can reach (avoiding marked nodes) it
does find, given sufficient fuel. -/
theorem findF_complete (nodes : List Nat) (out : Nat → List Nat) (tgt : Nat)
    (hnd : nodes.Nodup) (hcl : ∀ x y, y ∈ out x → y ∈ nodes)
    (habs : ∀ x, x ∉ nodes → out x = []) :
    ∀ (m : Marks) (fr : Nat), Reach out tgt m fr →
      ∀ fuel, (nodes.filter fun x => !(m x)).length < fuel →
      ∃ p m', findF out tgt fuel fr m = some (some p, m') := by
  intro m fr hr
  induction hr with
  | done mm hmm =>
    intro fuel hlt
    cases fuel with
    | zero => exact absurd hlt (Nat.not_lt_zero _)
    | succ fl =>
      refine ⟨[tgt], mm, ?_⟩
      simp [findF, findFStep, hmm]
  | step mm fr1 nb hmm hne hnb hr1 ih =>
    intro fuel hlt
    have hfr : fr1 ∈ nodes := by
      by_contra hf
      rw [habs fr1 hf] at hnb
      cases hnb
    cases fuel with
    | zero => exact absurd hlt (Nat.not_lt_zero _)
    | succ fl =>
      have hcnt := filter_length_mset nodes hnd fr1 hfr mm hmm
      have hlt2 : (nodes.filter fun x => !(mset fr1 mm x)).length < fl := by
        omega
      have hall : ∀ nb' ∈ out fr1,
          findF out tgt fl nb' (mset fr1 mm) ≠ none :=
        fun nb' h' =>
          findF_ne_none nodes out tgt hnd hcl fl nb' (mset fr1 mm)
            (hcl fr1 nb' h') hlt2
      have hgn : goNeighbors (findF out tgt fl) (out fr1) (mset fr1 mm) ≠ none :=
        goNeighbors_ne_none _ (findF_marks out tgt fl) _ _ hall
      obtain ⟨sm, hg⟩ := Option.ne_none_iff_exists.mp hgn
      obtain ⟨subs, m2⟩ := sm
      obtain ⟨p, m'', hstep⟩ := ih fl hlt2
      have hsubs : subs ≠ [] :=
        goNeighbors_sub_ne_nil _ (findF_marks out tgt fl) _ _ _ _ hg.symm
          nb hnb ⟨p, m'', hstep⟩
      obtain ⟨best, hbest⟩ := pickShortest_isSome subs hsubs
      refine ⟨fr1 :: best, mclear fr1 m2, ?_⟩
      simp only [findF, findFStep]
      rw [if_neg (by simp [hmm]), if_neg hne, ← hg]
      simp [hbest]

/-! ## Shape of a found path -/

/-- Every collected sub-path came from running the step on some listed
neighbour. -/
theorem goNeighbors_mem_src
    (step : Nat → Marks → Option (Option (List Nat) × Marks)) :
    ∀ (l : List Nat) (m : Marks) (subs : List (List Nat)) (mf : Marks),
      goNeighbors step l m = some (subs, mf) →
      ∀ p ∈ subs, ∃ nb ∈ l, ∃ m0 m1, step nb m0 = some (some p, m1) := by
  intro l
  induction l with
  | nil =>
    intro m subs mf hg p hp
    simp only [goNeighbors, Option.some.injEq, Prod.mk.injEq] at hg
    obtain ⟨h1, _⟩ := hg
    rw [← h1] at hp
    cases hp
  | cons a rest ih =>
    intro m subs mf hg p hp
    simp only [goNeighbors] at hg
    split at hg
    · cases hg
    · rename_i q m1 heq
      split at hg
      · cases hg
      · rename_i subs1 mf1 heq2
        simp only [Option.some.injEq, Prod.mk.injEq] at hg
        obtain ⟨h1, _⟩ := hg
        rw [← h1] at hp
        rcases List.mem_cons.mp hp with hpq | hp1
        · exact ⟨a, List.mem_cons_self a rest, m, m1, hpq ▸ heq⟩
        · obtain ⟨nb, hnb, m0, m1', hs⟩ := ih _ subs1 mf1 heq2 p hp1
          exact ⟨nb, List.mem_cons_of_mem _ hnb, m0, m1', hs⟩
    · rename_i m1 heq
      split at hg
      · cases hg
      · rename_i subs1 mf1 heq2
        simp only [Option.some.injEq, Prod.mk.injEq] at hg
        obtain ⟨h1, _⟩ := hg
        rw [← h1] at hp
        obtain ⟨nb, hnb, m0, m1', hs⟩ := ih _ subs1 mf1 heq2 p hp
        exact ⟨nb, List.mem_cons_of_mem _ hnb, m0, m1', hs⟩

/-- A successful `find` returns a path starting at the queried node whose
consecutive pairs each follow a stored out-list entry. -/
theorem findF_chain (out : Nat → List Nat) (tgt : Nat) :
    ∀ (fuel fr : Nat) (m : Marks) (p : List Nat) (m' : Marks),
      findF out tgt fuel fr m = some (some p, m') →
      ∃ t, p = fr :: t ∧ List.Chain' (fun a b => b ∈ out a) p := by
  intro fuel
  induction fuel with
  | zero => intro fr m p m' hf; cases hf
  | succ fuel ih =>
    intro fr m p m' hf
    simp only [findF, findFStep] at hf
    split at hf
    · simp at hf
    · split at hf
      · rename_i htg
        simp only [Option.some.injEq, Prod.mk.injEq] at hf
        obtain ⟨h1, _⟩ := hf
        have hpe : p = [fr] := by
          rw [← h1]
        exact ⟨[], hpe, hpe ▸ List.chain'_singleton fr⟩
      · split at hf
        · cases hf
        · rename_i subs m2 hg
          split at hf
          · simp at hf
          · rename_i best hps
            simp only [Option.some.injEq, Prod.mk.injEq] at hf
            obtain ⟨h1, _⟩ := hf
            have hbm : best ∈ subs := pickShortest_mem subs best hps
            obtain ⟨nb, hnb, m0, m1, hstep⟩ :=
              goNeighbors_mem_src _ _ _ subs m2 hg best hbm
            obtain ⟨t, hbt, hchain⟩ := ih nb m0 best m1 hstep
            refine ⟨best, by rw [← h1], ?_⟩
            rw [← h1, hbt]
            exact List.chain'_cons.mpr ⟨hnb, hbt ▸ hchain⟩

/-! ## Effect of `trace` on the state

`trace` can only write the cache: the guards mutate nothing, a hit returns
the state unchanged, and a run of `find` restores every `marked` flag
(`findF_marks`), so the only surviving write is the cache insertion on a
successful uncached trace. -/

/-- `trace` leaves every field except the cache exactly as it was. -/
theorem trace_state {α : Type} (h : Nat → Nat) (g : Graph α) (fr tgt : Nat) :
    ∃ c, (trace h g fr tgt).2 = { g with cache := c } := by
  unfold trace
  split
  · exact ⟨g.cache, rfl⟩
  · split
    · exact ⟨g.cache, rfl⟩
    · split
      · exact ⟨g.cache, rfl⟩
      · split
        · exact ⟨g.cache, rfl⟩
        · rename_i res m1 hfind
          split
          · obtain ⟨hm1, _⟩ :=
              findF_marks g.outs tgt (g.nodes.length + 1) fr g.marked none m1
                hfind
            exact ⟨g.cache, by rw [hm1]⟩
          · rename_i p
            obtain ⟨hm1, _⟩ :=
              findF_marks g.outs tgt (g.nodes.length + 1) fr g.marked (some p)
                m1 hfind
            split
            · exact ⟨insertCache (merge_ids h fr tgt) p g.cache, by rw [hm1]⟩
            · exact ⟨g.cache, by rw [hm1]⟩

/-- A failed `trace` returns the state exactly as it was. -/
theorem trace_fail_eq {α : Type} (h : Nat → Nat) (g : Graph α) (fr tgt : Nat)
    (hf : (trace h g fr tgt).1 = none) : (trace h g fr tgt).2 = g := by
  revert hf
  unfold trace
  split
  · intro _; rfl
  · split
    · intro _; rfl
    · split
      · intro hf; cases hf
      · split
        · intro _; rfl
        · rename_i res m1 hfind
          split
          · intro _
            obtain ⟨hm1, _⟩ :=
              findF_marks g.outs tgt (g.nodes.length + 1) fr g.marked none m1
                hfind
            rw [hm1]
          · split
            · intro hf; cases hf
            · intro hf; cases hf

/-! ## `load_edges` on a traced path -/

/-- If every consecutive pair of a path has its edge stored, the edge-lookup
loop succeeds. -/
theorem loadEdgesGo_isSome {α : Type} (h : Nat → Nat) (edges : Nat → Option α) :
    ∀ (p : List Nat),
      List.Chain' (fun a b => (edges (merge_ids h a b)).isSome = true) p →
      (loadEdgesGo h edges p).isSome = true := by
  intro p
  induction p with
  | nil => intro _; simp [loadEdgesGo]
  | cons a q ih =>
    intro hch
    cases q with
    | nil => simp [loadEdgesGo]
    | cons b rest =>
      obtain ⟨hab, htail⟩ := List.chain'_cons.mp hch
      obtain ⟨d, hd⟩ := Option.isSome_iff_exists.mp hab
      obtain ⟨ds, hds⟩ := Option.isSome_iff_exists.mp (ih htail)
      simp [loadEdgesGo, hd, hds]

/-- A path returned by the bare Tracer follows stored out-list entries. -/
theorem uncachedTrace_chain {α : Type} (g : Graph α) (f t : Nat) (p : List Nat)
    (hu : uncachedTrace g f t = some p) :
    List.Chain' (fun a b => b ∈ g.outs a) p := by
  revert hu
  unfold uncachedTrace
  split
  · intro hu; cases hu
  · split
    · intro hu; cases hu
    · split
      · intro hu; cases hu
      · rename_i res m1 hfind
        intro hu
        rw [hu] at hfind
        obtain ⟨t1, _, hch⟩ :=
          findF_chain g.outs t (g.nodes.length + 1) f g.marked p m1 hfind
        exact hch

/-- A successful `trace` value is either a cache hit or the bare Tracer's
own result. -/
theorem trace_val_cases {α : Type} (h : Nat → Nat) (g : Graph α) (fr tgt : Nat)
    (p : List Nat) (hp : (trace h g fr tgt).1 = some p) :
    (g.cacheEnabled = true ∧ lookupCache (merge_ids h fr tgt) g.cache = some p)
      ∨ uncachedTrace g fr tgt = some p := by
  revert hp
  unfold trace
  split
  · intro hp; cases hp
  · rename_i hg1
    split
    · intro hp; cases hp
    · rename_i hg2
      split
      · rename_i p1 hif
        intro hp
        simp only at hp
        rw [hp] at hif
        by_cases hce : g.cacheEnabled
        · rw [if_pos hce] at hif
          exact Or.inl ⟨hce, hif⟩
        · rw [if_neg hce] at hif
          cases hif
      · rename_i hif
        split
        · intro hp; cases hp
        · rename_i res m1 hfind
          split
          · intro hp; cases hp
          · rename_i q
            split
            · intro hp
              simp only at hp
              refine Or.inr ?_
              unfold uncachedTrace
              rw [if_neg hg1, if_neg hg2, hfind]
              exact hp
            · intro hp
              simp only at hp
              refine Or.inr ?_
              unfold uncachedTrace
              rw [if_neg hg1, if_neg hg2, hfind]
              exact hp

/-! ## The cycle scan -/

/-- The inner scan can only write the cache. -/
theorem scanOuts_state {α : Type} (h : Nat → Nat) (idn : Nat) :
    ∀ (l : List Nat) (g : Graph α),
      ∃ c, (scanOuts h idn l g).2 = { g with cache := c } := by
  intro l
  induction l with
  | nil => intro g; exact ⟨g.cache, rfl⟩
  | cons nb rest ih =>
    intro g
    obtain ⟨c1, hc1⟩ := trace_state h g nb idn
    cases ht : trace h g nb idn with
    | mk r g1 =>
      rw [ht] at hc1
      cases r with
      | some p =>
        refine ⟨c1, ?_⟩
        simp only [scanOuts, ht]
        exact hc1
      | none =>
        simp only at hc1
        obtain ⟨c2, hc2⟩ := ih g1
        refine ⟨c2, ?_⟩
        simp only [scanOuts, ht]
        rw [hc2, hc1]

/-- The outer scan can only write the cache. -/
theorem scanNodes_state {α : Type} (h : Nat → Nat) :
    ∀ (l : List Nat) (g : Graph α),
      ∃ c, (scanNodes h l g).2 = { g with cache := c } := by
  intro l
  induction l with
  | nil => intro g; exact ⟨g.cache, rfl⟩
  | cons idn rest ih =>
    intro g
    obtain ⟨c1, hc1⟩ := scanOuts_state h idn (g.outs idn) g
    cases hso : scanOuts h idn (g.outs idn) g with
    | mk b g1 =>
      rw [hso] at hc1
      cases b with
      | true =>
        refine ⟨c1, ?_⟩
        simp only [scanNodes, hso]
        exact hc1
      | false =>
        simp only at hc1
        obtain ⟨c2, hc2⟩ := ih g1
        refine ⟨c2, ?_⟩
        simp only [scanNodes, hso]
        rw [hc2, hc1]

/-- `contains_cycles` can only write the cache and the cycles flag. -/
theorem contains_cycles_state {α : Type} (h : Nat → Nat) (g : Graph α) :
    ∃ c b, (contains_cycles h g).2 = { g with cache := c, containsCycles := b } := by
  unfold contains_cycles
  split
  · exact ⟨g.cache, g.containsCycles, rfl⟩
  · obtain ⟨c, hc⟩ := scanNodes_state h g.nodes g
    split
    · rename_i g1 heq
      rw [heq] at hc
      refine ⟨c, true, ?_⟩
      simp only at hc
      rw [hc]
    · rename_i g1 heq
      rw [heq] at hc
      refine ⟨c, g.containsCycles, ?_⟩
      simp only at hc
      rw [hc]

/-- A fully failed inner scan leaves the state untouched (no successful
trace, hence no cache write and restored marks). -/
theorem scanOuts_false_eq {α : Type} (h : Nat → Nat) (idn : Nat) :
    ∀ (l : List Nat) (g : Graph α),
      (scanOuts h idn l g).1 = false → (scanOuts h idn l g).2 = g := by
  intro l
  induction l with
  | nil => intro g _; rfl
  | cons nb rest ih =>
    intro g hfalse
    cases ht : trace h g nb idn with
    | mk r g1 =>
      cases r with
      | some p =>
        simp only [scanOuts, ht] at hfalse
        cases hfalse
      | none =>
        have hg1 : g1 = g := by
          have h2 := trace_fail_eq h g nb idn (by rw [ht])
          rw [ht] at h2
          exact h2
        simp only [scanOuts, ht] at hfalse ⊢
        rw [hg1] at hfalse ⊢
        exact ih g hfalse

/-- If some listed neighbour's trace from the entry state succeeds, the
inner scan reports success. -/
theorem scanOuts_found {α : Type} (h : Nat → Nat) (idn : Nat) :
    ∀ (l : List Nat) (g : Graph α),
      (∃ nb ∈ l, ((trace h g nb idn).1).isSome = true) →
      (scanOuts h idn l g).1 = true := by
  intro l
  induction l with
  | nil =>
    intro g hex
    obtain ⟨nb, hnb, _⟩ := hex
    cases hnb
  | cons a rest ih =>
    intro g hex
    obtain ⟨nb, hnb, hs⟩ := hex
    cases ht : trace h g a idn with
    | mk r g1 =>
      cases r with
      | some p => simp [scanOuts, ht]
      | none =>
        have hg1 : g1 = g := by
          have h2 := trace_fail_eq h g a idn (by rw [ht])
          rw [ht] at h2
          exact h2
        simp only [scanOuts, ht]
        rw [hg1]
        apply ih g
        rcases List.mem_cons.mp hnb with hba | hbr
        · rw [hba, ht] at hs
          cases hs
        · exact ⟨nb, hbr, hs⟩

/-- If some stored edge's back-trace from the entry state succeeds, the
outer scan reports success. -/
theorem scanNodes_found {α : Type} (h : Nat → Nat) :
    ∀ (l : List Nat) (g : Graph α),
      (∃ idn ∈ l, ∃ nb ∈ g.outs idn, ((trace h g nb idn).1).isSome = true) →
      (scanNodes h l g).1 = true := by
  intro l
  induction l with
  | nil =>
    intro g hex
    obtain ⟨idn, hidn, _⟩ := hex
    cases hidn
  | cons a rest ih =>
    intro g hex
    obtain ⟨idn, hidn, nb, hnb, hs⟩ := hex
    cases hso : scanOuts h a (g.outs a) g with
    | mk b g1 =>
      cases b with
      | true => simp [scanNodes, hso]
      | false =>
        have hg1 : g1 = g := by
          have h2 := scanOuts_false_eq h a (g.outs a) g (by rw [hso])
          rw [hso] at h2
          exact h2
        simp only [scanNodes, hso]
        rw [hg1]
        apply ih g
        rcases List.mem_cons.mp hidn with hia | hir
        · exfalso
          have hfound : (scanOuts h a (g.outs a) g).1 = true := by
            apply scanOuts_found h a (g.outs a) g
            refine ⟨nb, ?_, ?_⟩
            · rw [← hia]; exact hnb
            · rw [← hia]; exact hs
          rw [hso] at hfound
          cases hfound
        · exact ⟨idn, hir, nb, hnb, hs⟩

/-- On a well-formed, mark-clear state, `trace` succeeds whenever the
target is `find`-reachable from the source. -/
theorem trace_reach_isSome {α : Type} (h : Nat → Nat) (g : Graph α)
    (fr tgt : Nat) (hInv : Inv g) (hclear : AllClear g)
    (hfr : fr ∈ g.nodes) (htgt : tgt ∈ g.nodes)
    (hr : Reach g.outs tgt (fun _ => false) fr) :
    ((trace h g fr tgt).1).isSome = true := by
  obtain ⟨hnd, hcl, habs⟩ := hInv
  have hmarks : g.marked = (fun _ => false) := funext hclear
  unfold trace
  rw [if_neg (not_not_intro htgt), if_neg (not_not_intro hfr)]
  cases hlk : (if g.cacheEnabled then lookupCache (merge_ids h fr tgt) g.cache
      else none) with
  | some p => simp [hlk]
  | none =>
    have hcount :
        (g.nodes.filter fun x => !(g.marked x)).length < g.nodes.length + 1 :=
      Nat.lt_succ_of_le (List.length_filter_le _ _)
    obtain ⟨p, m', hfind⟩ :=
      findF_complete g.nodes g.outs tgt hnd hcl habs g.marked fr
        (by rw [hmarks]; exact hr) (g.nodes.length + 1) hcount
    simp only [hlk, hfind]
    by_cases hce : g.cacheEnabled <;> simp [hce]

/-- On a well-formed, mark-clear state whose store actually contains a
cycle, `contains_cycles` reports `true`. -/
theorem contains_cycles_true_of_cycle {α : Type} (h : Nat → Nat)
    (g : Graph α) (hInv : Inv g) (hclear : AllClear g) (hcyc : HasCycle g) :
    (contains_cycles h g).1 = true := by
  unfold contains_cycles
  split
  · rfl
  · obtain ⟨idn, nb, hidn, hnb, hr⟩ := hcyc
    have hnbm : nb ∈ g.nodes := hInv.2.1 idn nb hnb
    have hfound : (scanNodes h g.nodes g).1 = true :=
      scanNodes_found h g.nodes g
        ⟨idn, hidn, nb, hnb,
          trace_reach_isSome h g nb idn hInv hclear hnbm hidn hr⟩
    split
    · rfl
    · rename_i g1 heq
      rw [heq] at hfound
      cases hfound

/-! ## Preservation under mutation -/

/-- `find`-reachability is monotone in the out-lists. -/
theorem reach_mono (out out' : Nat → List Nat) (tgt : Nat)
    (hsub : ∀ x, ∀ y ∈ out x, y ∈ out' x) :
    ∀ (m : Marks) (fr : Nat), Reach out tgt m fr → Reach out' tgt m fr := by
  intro m fr hr
  induction hr with
  | done mm hmm => exact Reach.done mm hmm
  | step mm fr1 nb hmm hne hnb _ ih =>
    exact Reach.step mm fr1 nb hmm hne (hsub fr1 nb hnb) ih

/-- Any single mutation — successful or failed — preserves well-formedness,
clear markers, and the presence of a cycle (additions never remove nodes or
edges). -/
theorem applyAdd_pres {α : Type} (h : Nat → Nat) (op : AddOp α) (g : Graph α)
    (hInv : Inv g) (hclear : AllClear g) (hcyc : HasCycle g) :
    Inv (applyAdd h op g) ∧ AllClear (applyAdd h op g) ∧
      HasCycle (applyAdd h op g) := by
  obtain ⟨hnd, hcl, habs⟩ := hInv
  cases op with
  | node id =>
    simp only [applyAdd, add_node]
    by_cases hid : id ∈ g.nodes
    · rw [if_pos hid]
      exact ⟨⟨hnd, hcl, habs⟩, hclear, hcyc⟩
    · rw [if_neg hid]
      simp only
      refine ⟨⟨?_, ?_, ?_⟩, ?_, ?_⟩
      · have hperm := List.perm_orderedInsert (· ≤ ·) id g.nodes
        rw [hperm.nodup_iff]
        exact List.nodup_cons.mpr ⟨hid, hnd⟩
      · intro x y hy
        replace hy : y ∈ (if x = id then [] else g.outs x) := hy
        show y ∈ List.orderedInsert (· ≤ ·) id g.nodes
        by_cases hx : x = id
        · rw [if_pos hx] at hy
          cases hy
        · rw [if_neg hx] at hy
          exact (List.mem_orderedInsert _).mpr (Or.inr (hcl x y hy))
      · intro x hx
        replace hx : x ∉ List.orderedInsert (· ≤ ·) id g.nodes := hx
        show (if x = id then [] else g.outs x) = []
        have hx1 : x ≠ id := fun he =>
          hx ((List.mem_orderedInsert _).mpr (Or.inl he))
        have hx2 : x ∉ g.nodes := fun he =>
          hx ((List.mem_orderedInsert _).mpr (Or.inr he))
        rw [if_neg hx1]
        exact habs x hx2
      · intro x
        by_cases hx : x = id <;> simp [hx, hclear x]
      · obtain ⟨idn, nb, hidn, hnb, hr⟩ := hcyc
        have houts : ∀ x, ∀ y ∈ g.outs x,
            y ∈ (fun x => if x = id then [] else g.outs x) x := by
          intro x y hy
          by_cases hx : x = id
          · rw [hx, habs id hid] at hy
            cases hy
          · simpa [hx] using hy
        exact ⟨idn, nb, (List.mem_orderedInsert _).mpr (Or.inr hidn),
          houts idn nb hnb, reach_mono _ _ _ houts _ _ hr⟩
  | edge f t d =>
    simp only [applyAdd, add_edge]
    by_cases h1 : t ∉ g.nodes
    · rw [if_pos h1]
      exact ⟨⟨hnd, hcl, habs⟩, hclear, hcyc⟩
    · rw [if_neg h1]
      by_cases h2 : f ∉ g.nodes
      · rw [if_pos h2]
        exact ⟨⟨hnd, hcl, habs⟩, hclear, hcyc⟩
      · rw [if_neg h2]
        by_cases h3 : (g.edges (merge_ids h f t)).isSome = true
        · rw [if_pos h3]
          exact ⟨⟨hnd, hcl, habs⟩, hclear, hcyc⟩
        · rw [if_neg h3]
          simp only
          have htm : t ∈ g.nodes := not_not.mp h1
          have hfm : f ∈ g.nodes := not_not.mp h2
          have houts : ∀ x, ∀ y ∈ g.outs x,
              y ∈ (fun x => if x = f then g.outs f ++ [t] else g.outs x) x := by
            intro x y hy
            by_cases hx : x = f
            · subst hx
              simp only [if_pos rfl]
              exact List.mem_append.mpr (Or.inl hy)
            · simpa [hx] using hy
          refine ⟨⟨hnd, ?_, ?_⟩, hclear, ?_⟩
          · intro x y hy
            replace hy : y ∈ (if x = f then g.outs f ++ [t] else g.outs x) := hy
            show y ∈ g.nodes
            by_cases hx : x = f
            · rw [if_pos hx] at hy
              rcases List.mem_append.mp hy with hy1 | hy2
              · exact hcl f y hy1
              · simp only [List.mem_singleton] at hy2
                rw [hy2]
                exact htm
            · rw [if_neg hx] at hy
              exact hcl x y hy
          · intro x hx
            replace hx : x ∉ g.nodes := hx
            show (if x = f then g.outs f ++ [t] else g.outs x) = []
            have hxf : x ≠ f := fun he => hx (he ▸ hfm)
            rw [if_neg hxf]
            exact habs x hx
          · obtain ⟨idn, nb, hidn, hnb, hr⟩ := hcyc
            exact ⟨idn, nb, hidn, houts idn nb hnb,
              reach_mono _ _ _ houts _ _ hr⟩

/-! ## Order-sensitivity of the merged key -/

/-- `2^64` is positive. -/
theorem W_pos : 0 < W := Nat.pos_pow_of_pos 64 (by norm_num)

/-- When the two identifiers' hashes differ, `merge_ids` separates the two
orientations of a pair: `h(a) ^ (h(b) << 1)` and `h(b) ^ (h(a) << 1)` can
only coincide when the (truncated) hashes are bitwise equal. -/
theorem merge_ids_ne (h : Nat → Nat) (a b : Nat) (hne : h a % W ≠ h b % W) :
    merge_ids h a b ≠ merge_ids h b a := by
  intro heq
  apply hne
  unfold merge_ids at heq
  have hAW : h a % W < W := Nat.mod_lt _ W_pos
  have hBW : h b % W < W := Nat.mod_lt _ W_pos
  set A := h a % W with hA
  set B := h b % W with hB
  show A = B
  have hbits : ∀ i, A.testBit i = B.testBit i := by
    intro i
    induction i using Nat.strong_induction_on with
    | _ i ih =>
      by_cases hi64 : i < 64
      · have hbe := congrArg (fun x => Nat.testBit x i) heq
        simp only [Nat.testBit_xor, W, Nat.testBit_mod_two_pow,
          Nat.testBit_shiftLeft, hi64, decide_True, Bool.true_and, ge_iff_le] at hbe
        cases Nat.eq_zero_or_pos i with
        | inl h0 =>
          subst h0
          simpa using hbe
        | inr hpos =>
          have h1i : (decide (1 ≤ i)) = true := by
            simp only [decide_eq_true_eq]
            omega
          rw [h1i] at hbe
          simp only [Bool.true_and] at hbe
          rw [ih (i - 1) (by omega)] at hbe
          cases hc : B.testBit (i - 1)
          · rw [hc] at hbe
            simpa using hbe
          · rw [hc] at hbe
            simp only [Bool.xor_true] at hbe
            exact Bool.not_inj hbe
      · have hle : (2:Nat) ^ 64 ≤ 2 ^ i :=
          Nat.pow_le_pow_right (by norm_num) (by omega)
        have hA0 : A.testBit i = false :=
          Nat.testBit_lt_two_pow (lt_of_lt_of_le hAW hle)
        have hB0 : B.testBit i = false :=
          Nat.testBit_lt_two_pow (lt_of_lt_of_le hBW hle)
        rw [hA0, hB0]
  exact Nat.eq_of_testBit_eq hbits

/-- Adding the edge `(a, b)` never touches the edge stored under the
reverse pair's key, as long as the two keys differ. -/
theorem add_edge_reverse_key {α : Type} (h : Nat → Nat) (g : Graph α)
    (a b : Nat) (d : α) (hk : merge_ids h a b ≠ merge_ids h b a) :
    ((add_edge h g a b d).2).edges (merge_ids h b a) =
      g.edges (merge_ids h b a) := by
  unfold add_edge
  split
  · rfl
  · split
    · rfl
    · split
      · rfl
      · simp only
        show (if merge_ids h b a = merge_ids h a b then some d
            else g.edges (merge_ids h b a)) = g.edges (merge_ids h b a)
        rw [if_neg (fun he => hk he.symm)]

/-! ## Cache transparency -/

/-- An empty cache trivially satisfies the cache invariant. -/
theorem cacheOK_of_empty {α : Type} (h : Nat → Nat) (g : Graph α)
    (hc : g.cache = []) : CacheOK h g := by
  intro k p hkp
  rw [hc] at hkp
  cases hkp

/-- `std::map` assignment followed by lookup. -/
theorem lookup_insertCache (k k' : Nat) (v : List Nat) :
    ∀ (c : List (Nat × List Nat)),
      lookupCache k' (insertCache k v c) =
        if k = k' then some v else lookupCache k' c := by
  intro c
  induction c with
  | nil => simp [insertCache, lookupCache]
  | cons e rest ih =>
    obtain ⟨k1, v1⟩ := e
    simp only [insertCache]
    by_cases h1 : k1 = k
    · rw [if_pos h1]
      subst h1
      simp only [lookupCache]
      by_cases h2 : k1 = k'
      · rw [if_pos h2, if_pos h2]
      · rw [if_neg h2, if_neg h2, if_neg h2]
    · rw [if_neg h1]
      simp only [lookupCache]
      by_cases h3 : k1 = k'
      · rw [if_pos h3]
        have hkk : k ≠ k' := fun he => h1 (h3.trans he.symm)
        rw [if_neg hkk, if_pos h3]
      · rw [if_neg h3, if_neg h3, ih]

/-- The bare Tracer ignores the cache field. -/
theorem uncachedTrace_set_cache {α : Type} (g : Graph α)
    (c : List (Nat × List Nat)) (f t : Nat) :
    uncachedTrace { g with cache := c } f t = uncachedTrace g f t := rfl

/-- The bare Tracer depends only on the node list, out-lists and marks. -/
theorem uncachedTrace_fields {α : Type} (g g' : Graph α)
    (hn : g'.nodes = g.nodes) (ho : g'.outs = g.outs)
    (hm : g'.marked = g.marked) (f t : Nat) :
    uncachedTrace g' f t = uncachedTrace g f t := by
  unfold uncachedTrace
  rw [hn, ho, hm]

/-- `trace` maintains the cache invariant: the only entry it ever writes is
its own Tracer result for the queried pair on the (otherwise unchanged)
store. -/
theorem trace_preserves_cacheOK {α : Type} (h : Nat → Nat) (g : Graph α)
    (fr tgt : Nat) (hCO : CacheOK h g) :
    CacheOK h (trace h g fr tgt).2 := by
  unfold trace
  split
  · exact hCO
  · rename_i hg1
    split
    · exact hCO
    · rename_i hg2
      split
      · exact hCO
      · split
        · exact hCO
        · rename_i res m1 hfind
          obtain ⟨hm1, _⟩ :=
            findF_marks g.outs tgt (g.nodes.length + 1) fr g.marked res m1 hfind
          split
          · rw [hm1]
            exact hCO
          · rename_i p
            split
            · rename_i hce
              intro k q hkq
              simp only at hkq
              rw [lookup_insertCache] at hkq
              by_cases hk : merge_ids h fr tgt = k
              · rw [if_pos hk] at hkq
                injection hkq with hpq
                refine ⟨fr, tgt, not_not.mp hg2, not_not.mp hg1, hk, ?_⟩
                refine Eq.trans (uncachedTrace_fields g _ ?_ ?_ ?_ fr tgt) ?_
                · rfl
                · rfl
                · exact hm1
                · unfold uncachedTrace
                  rw [if_neg hg1, if_neg hg2, hfind]
                  exact congrArg some hpq
              · rw [if_neg hk] at hkq
                obtain ⟨f, t, hf, ht, hkey, hu⟩ := hCO k q hkq
                refine ⟨f, t, hf, ht, hkey, ?_⟩
                refine Eq.trans (uncachedTrace_fields g _ ?_ ?_ ?_ f t) ?_
                · rfl
                · rfl
                · exact hm1
                · exact hu
            · rw [hm1]
              exact hCO

/-! ## Cache-transparent value of `trace` -/

/-- C2 (amended): for every graph state whose cache entries are Tracer
results for stored pairs on the current store (`CacheOK` — the invariant
the operations maintain, every mutation clearing the cache), and every
query whose merged key does not collide with that of a stored pair with a
different Tracer value, the value of `trace` equals the uncached Tracer
result — caching on or off, hit or miss; only the cost differs. Without
the no-collision hypothesis this fails (see the counterexample): distinct
pairs can share a merged key, making a hit return another pair's path. -/
theorem trace_cache_transparent {α : Type} (h : Nat → Nat) (g : Graph α)
    (fr tgt : Nat) (hCO : CacheOK h g)
    (hNC : ∀ f t, f ∈ g.nodes → t ∈ g.nodes →
      merge_ids h f t = merge_ids h fr tgt →
      uncachedTrace g f t = uncachedTrace g fr tgt) :
    (trace h g fr tgt).1 = uncachedTrace g fr tgt := by
  by_cases h1 : tgt ∉ g.nodes
  · simp only [trace, uncachedTrace, if_pos h1]
  · by_cases h2 : fr ∉ g.nodes
    · simp only [trace, uncachedTrace, if_neg h1, if_pos h2]
    · simp only [trace, if_neg h1, if_neg h2]
      by_cases hce : g.cacheEnabled
      · rw [if_pos hce]
        cases hlk : lookupCache (merge_ids h fr tgt) g.cache with
        | some p =>
          simp only [hlk]
          obtain ⟨f, t, hf, ht, hkey, hu⟩ := hCO _ _ hlk
          rw [← hNC f t hf ht hkey, hu]
        | none =>
          simp only [hlk]
          simp only [uncachedTrace]
          rw [if_neg h1, if_neg h2]
          cases hfind : findF g.outs tgt (g.nodes.length + 1) fr g.marked with
          | none => simp [hfind]
          | some rm =>
            obtain ⟨res, m1⟩ := rm
            simp only [hfind]
            cases res with
            | none => simp
            | some p => simp [hce]
      · rw [if_neg hce]
        simp only [uncachedTrace]
        rw [if_neg h1, if_neg h2]
        cases hfind : findF g.outs tgt (g.nodes.length + 1) fr g.marked with
        | none => simp [hfind]
        | some rm =>
          obtain ⟨res, m1⟩ := rm
          simp only [hfind]
          cases res with
          | none => simp
          | some p => simp [hce]

/-! ## Path validity of `trace` results -/

/-- C1 (amended): for every graph state whose out-lists have their edges
stored (`EdgesOut`, established by `add_edge`) and whose cache holds only
Tracer results for stored pairs (`CacheOK`), every successful
`trace(from,to)` returns a path whose every consecutive node pair has a
corresponding stored edge, and `load_edges` on that path succeeds if and
only if the path has at least two nodes — so it fails exactly for the
single-node path (as returned when `from = to`), not never. -/
theorem trace_path_edges_chain {α : Type} (h : Nat → Nat) (g : Graph α)
    (fr tgt : Nat) (p : List Nat) (hEO : EdgesOut h g)
    (hCO : CacheOK h g) (hp : (trace h g fr tgt).1 = some p) :
    List.Chain' (fun a b => (g.edges (merge_ids h a b)).isSome = true) p ∧
      (((load_edges h g p).1).isSome = true ↔ 2 ≤ p.length) := by
  have hchain : List.Chain' (fun a b => b ∈ g.outs a) p := by
    rcases trace_val_cases h g fr tgt p hp with ⟨hce, hlk⟩ | hu
    · obtain ⟨f, t, _, _, _, hu⟩ := hCO _ _ hlk
      exact uncachedTrace_chain g f t p hu
    · exact uncachedTrace_chain g fr tgt p hu
  have hech :
      List.Chain' (fun a b => (g.edges (merge_ids h a b)).isSome = true) p :=
    hchain.imp (fun a b hab => hEO a b hab)
  refine ⟨hech, ?_, ?_⟩
  · intro hs
    by_contra hlen
    have hlt : p.length < 2 := by omega
    simp only [load_edges] at hs
    rw [if_pos hlt] at hs
    cases hs
  · intro hlen
    have hnl : ¬(p.length < 2) := by omega
    simp only [load_edges]
    rw [if_neg hnl]
    exact loadEdgesGo_isSome h g.edges p hech

/-! ## The trivial self-trace -/

/-- C3 (amended): for every stored node `x` whose visiting marker is clear,
provided the cache holds no entry under the merged key of `(x,x)` (cache
disabled, cleared, or simply missing the key), `trace(x,x)` succeeds with
exactly the single-node path `[x]` — no outgoing edge is traversed, even
when a self-loop `x→x` exists, since the target check precedes neighbour
exploration — and `load_edges` on that path fails because its length is 1.
A colliding cache entry can instead be returned verbatim (see the
counterexample), so the cache-miss proviso is necessary. -/
theorem trace_self_trivial {α : Type} (h : Nat → Nat) (g : Graph α) (x : Nat)
    (hx : x ∈ g.nodes) (hm : g.marked x = false)
    (hc : g.cacheEnabled = true →
      lookupCache (merge_ids h x x) g.cache = none) :
    (trace h g x x).1 = some [x] ∧ ((load_edges h g [x]).1) = none := by
  constructor
  · unfold trace
    rw [if_neg (not_not_intro hx), if_neg (not_not_intro hx)]
    have hlk : (if g.cacheEnabled = true
        then lookupCache (merge_ids h x x) g.cache else none) = none := by
      by_cases hce : g.cacheEnabled
      · rw [if_pos hce]
        exact hc hce
      · rw [if_neg hce]
    rw [hlk]
    have hfind : findF g.outs x (g.nodes.length + 1) x g.marked =
        some (some [x], g.marked) := by
      show findFStep g.outs x (findF g.outs x g.nodes.length) x g.marked =
        some (some [x], g.marked)
      unfold findFStep
      rw [if_neg (by simp [hm]), if_pos rfl]
    rw [hfind]
    by_cases hce : g.cacheEnabled <;> simp [hce]
  · simp [load_edges]

/-! ## Failed insertions leave the state untouched -/

/-- C5: whenever `add_node` or `add_edge` fails — duplicate node
identifier, absent endpoint, or duplicate ordered edge pair — the entire
graph state (node store, edge store, out-lists, markers, cache, cycles
flag) is exactly as it was before the call: both operations validate
before mutating, and in particular the cache is not cleared on failure. -/
theorem add_fail_state {α : Type} (h : Nat → Nat) (g : Graph α)
    (id fr tgt : Nat) (d : α) :
    ((add_node g id).1 = false → (add_node g id).2 = g) ∧
      ((add_edge h g fr tgt d).1 = false → (add_edge h g fr tgt d).2 = g) := by
  constructor
  · intro hfail
    unfold add_node at hfail ⊢
    by_cases hid : id ∈ g.nodes
    · rw [if_pos hid]
    · rw [if_neg hid] at hfail
      cases hfail
  · intro hfail
    unfold add_edge at hfail ⊢
    by_cases h1 : tgt ∉ g.nodes
    · rw [if_pos h1]
    · rw [if_neg h1] at hfail ⊢
      by_cases h2 : fr ∉ g.nodes
      · rw [if_pos h2]
      · rw [if_neg h2] at hfail ⊢
        by_cases h3 : (g.edges (merge_ids h fr tgt)).isSome = true
        · rw [if_pos h3]
        · rw [if_neg h3] at hfail
          cases hfail

/-! ## Claim theorems assembled from the development -/

/-- C6 (amended): for every two identifiers whose (truncated) hashes
differ, the merged key of `(A,B)` differs from that of `(B,A)`;
consequently adding edge `A→B` leaves the edge stored under the reverse
pair's key untouched — it neither creates, satisfies, nor blocks a lookup
for `(B,A)`. For identifiers with colliding hashes the two keys coincide
and the reverse insertion is blocked as a duplicate (see the
counterexample), so the hash-distinctness proviso is necessary. -/
theorem merge_order_sensitive (h : Nat → Nat) (a b : Nat)
    (hne : h a % W ≠ h b % W) :
    merge_ids h a b ≠ merge_ids h b a ∧
      ∀ {α : Type} (g : Graph α) (d : α),
        ((add_edge h g a b d).2).edges (merge_ids h b a) =
          g.edges (merge_ids h b a) :=
  ⟨merge_ids_ne h a b hne,
    fun g d => add_edge_reverse_key h g a b d (merge_ids_ne h a b hne)⟩

/-- C7 (amended): for every well-formed, mark-clear graph state whose
store actually contains a cycle (some stored edge whose head reaches back
to its tail), `contains_cycles` reports `true`, and it keeps reporting
`true` for every state reachable by any sequence of `add_node`/`add_edge`
calls — additions never remove the cycle, and after the sticky flag is
reset the rescan rediscovers it. The antecedent must be an actual cycle:
a `true` answer owed solely to a colliding cache entry does not persist
across a mutation (see the counterexample). -/
theorem cycle_monotone {α : Type} (h : Nat → Nat) (g : Graph α)
    (hInv : Inv g) (hclear : AllClear g) (hcyc : HasCycle g) :
    ∀ ops : List (AddOp α),
      (contains_cycles h (applyAdds h ops g)).1 = true := by
  have main : ∀ (ops : List (AddOp α)) (g : Graph α),
      Inv g → AllClear g → HasCycle g →
      (contains_cycles h (applyAdds h ops g)).1 = true := by
    intro ops
    induction ops with
    | nil => intro g hI hC hH; exact contains_cycles_true_of_cycle h g hI hC hH
    | cons op rest ih =>
      intro g hI hC hH
      obtain ⟨hI2, hC2, hH2⟩ := applyAdd_pres h op g hI hC hH
      exact ih _ hI2 hC2 hH2
  intro ops
  exact main ops g hInv hclear hcyc

/-- C9: if every node's visiting marker is clear before a call, it is
clear again after every public operation — `trace` (success or failure;
`find` restores each marker on every exit path), both insertions, edge
lookup, cycle checking, optimization, and the cache controls. -/
theorem marker_invariant {α : Type} (h : Nat → Nat) (g : Graph α)
    (hclear : AllClear g) (d : α) :
    (∀ fr tgt, AllClear ((trace h g fr tgt).2)) ∧
      (∀ id, AllClear ((add_node g id).2)) ∧
      (∀ fr tgt, AllClear ((add_edge h g fr tgt d).2)) ∧
      (∀ p, AllClear ((load_edges h g p).2)) ∧
      AllClear ((contains_cycles h g).2) ∧
      AllClear ((optimize_trace g).2) ∧
      (∀ b, AllClear (toggle_cache g b)) ∧
      AllClear (clear_cache g) := by
  refine ⟨?_, ?_, ?_, ?_, ?_, ?_, ?_, ?_⟩
  · intro fr tgt
    obtain ⟨c, hc⟩ := trace_state h g fr tgt
    intro x
    rw [hc]
    exact hclear x
  · intro id x
    unfold add_node
    by_cases hid : id ∈ g.nodes
    · rw [if_pos hid]
      exact hclear x
    · rw [if_neg hid]
      show (if x = id then false else g.marked x) = false
      by_cases hx : x = id
      · rw [if_pos hx]
      · rw [if_neg hx]
        exact hclear x
  · intro fr tgt x
    unfold add_edge
    by_cases h1 : tgt ∉ g.nodes
    · rw [if_pos h1]
      exact hclear x
    · rw [if_neg h1]
      by_cases h2 : fr ∉ g.nodes
      · rw [if_pos h2]
        exact hclear x
      · rw [if_neg h2]
        by_cases h3 : (g.edges (merge_ids h fr tgt)).isSome = true
        · rw [if_pos h3]
          exact hclear x
        · rw [if_neg h3]
          exact hclear x
  · intro p x
    exact hclear x
  · obtain ⟨c, b, hcb⟩ := contains_cycles_state h g
    intro x
    rw [hcb]
    exact hclear x
  · intro x
    unfold optimize_trace
    by_cases hb : (!g.cacheEnabled || g.cache.isEmpty) = true
    · rw [if_pos hb]
      exact hclear x
    · rw [if_neg hb]
      exact hclear x
  · intro b x
    exact hclear x
  · intro x
    exact hclear x

/-- C10: the query operations mutate neither the node set, nor any
out-list, nor the edge store — for every state and every identifiers,
present or not. `trace` can change only the cache (markers are restored
exactly), `load_edges` changes nothing at all, and `contains_cycles` can
change only the cache and the cycles flag. -/
theorem query_frame {α : Type} (h : Nat → Nat) (g : Graph α)
    (fr tgt : Nat) (p : List Nat) :
    ((trace h g fr tgt).2.nodes = g.nodes ∧
      (trace h g fr tgt).2.outs = g.outs ∧
      (trace h g fr tgt).2.edges = g.edges ∧
      (trace h g fr tgt).2.marked = g.marked ∧
      (trace h g fr tgt).2.cacheEnabled = g.cacheEnabled ∧
      (trace h g fr tgt).2.averagePathLen = g.averagePathLen ∧
      (trace h g fr tgt).2.containsCycles = g.containsCycles) ∧
    ((load_edges h g p).2 = g) ∧
    ((contains_cycles h g).2.nodes = g.nodes ∧
      (contains_cycles h g).2.outs = g.outs ∧
      (contains_cycles h g).2.edges = g.edges ∧
      (contains_cycles h g).2.marked = g.marked ∧
      (contains_cycles h g).2.cacheEnabled = g.cacheEnabled ∧
      (contains_cycles h g).2.averagePathLen = g.averagePathLen) := by
  obtain ⟨c, hc⟩ := trace_state h g fr tgt
  obtain ⟨c2, b2, hcb⟩ := contains_cycles_state h g
  refine ⟨⟨?_, ?_, ?_, ?_, ?_, ?_, ?_⟩, rfl, ?_, ?_, ?_, ?_, ?_, ?_⟩ <;>
    first
      | rw [hc]
      | rw [hcb]

/-! ## Concrete evaluations: scenario checks and counterexamples -/

/-- C4 (code evaluated at the failing input): with two cache entries of
lengths 2 and 3 (total 5), `optimize_trace` succeeds but stores
`5 / 2 = 2`, the truncated average, where the claim — and the `std::ceil`
call in the source — requires the ceiling `3`: the `size_t` division
truncates before `std::ceil` ever sees a fraction. -/
theorem optimize_floor_eval :
    gOpt.cache.length = 2 ∧
      gOpt.cache.foldl (fun acc e => acc + e.2.length) 0 = 5 ∧
      (optimize_trace gOpt).1 = true ∧
      (optimize_trace gOpt).2.averagePathLen = 2 ∧
      ((5 + 2 - 1) / 2 : Nat) = 3 := by decide

/-- C8: on the §8 scenario-1 graph (nodes `A..I` as `0..8`, the twelve
labelled edges in insertion order), the build succeeds, `trace(A, I)`
returns exactly `[A, B, I]`, and `load_edges` on that path returns exactly
the payloads `["A->B", "B->I"]` in order. -/
theorem scenario_trace_eval :
    (build_from hPow (initGraph String) [0, 1, 2, 3, 4, 5, 6, 7, 8]
      [(0, 5, "A->F"), (0, 3, "A->D"), (0, 1, "A->B"), (3, 0, "D->A"),
       (3, 5, "D->F"), (5, 6, "F->G"), (6, 7, "G->H"), (7, 4, "H->E"),
       (4, 2, "E->C"), (2, 1, "C->B"), (1, 8, "B->I"),
       (1, 4, "B->E")]).1 = true ∧
      (trace hPow gScenario 0 8).1 = some [0, 1, 8] ∧
      (load_edges hPow gScenario [0, 1, 8]).1 = some ["A->B", "B->I"] := by
  decide

/-- C1 counterexample: on a store holding the single node `0`,
`trace(0,0)` succeeds with the single-node path `[0]`, yet `load_edges` on
that returned path fails — refuting "`load_edges` on the returned path
never fails (including the single-node path returned when from == to)". -/
theorem single_node_load_edges_cex :
    (trace hId gSingle 0 0).1 = some [0] ∧
      (load_edges hId gSingle [0]).1 = none := by decide

/-- C2 counterexample: after `trace(0,1)` cached `[0,1]` under key
`merge_ids hId 0 1 = 2`, the query `(2,0)` — whose merged key is also `2`
— returns the cached `[0,1]`, while the Tracer on the same store finds no
path from `2` to `0`: the value of `trace` differs between cached and
uncached execution. -/
theorem cache_collision_cex :
    (trace hId gPoison 2 0).1 = some [0, 1] ∧
      uncachedTrace gPoison 2 0 = none := by decide

/-- C3 counterexample: node `1` is stored, yet `trace(1,1)` returns the
cached path `[3,0]` — the entry `trace(3,0)` stored under key
`3 = merge_ids hId 3 0 = merge_ids hId 1 1` — not the single-element path
`[1]`. -/
theorem self_trace_poisoned_cex :
    (1 ∈ gSelfPoison.nodes) ∧
      (trace hId gSelfPoison 1 1).1 = some [3, 0] ∧
      (trace hId gSelfPoison 1 1).1 ≠ some [1] := by decide

/-- C6 counterexample: under the constant hash (a legal `std::hash`
instantiation), the distinct identifiers `0` and `1` have equal merged
keys for both orientations, and after adding `0→1` the reverse insertion
`1→0` is blocked as a duplicate. -/
theorem merge_collision_cex :
    (0 : Nat) ≠ 1 ∧
      merge_ids hZero 0 1 = merge_ids hZero 1 0 ∧
      (add_edge hZero gTwo 0 1 "d").1 = true ∧
      (add_edge hZero (add_edge hZero gTwo 0 1 "d").2 1 0 "e").1 = false := by
  decide

/-- C7 counterexample: on the acyclic store `{0,1,2}` with edges `0→1`,
`0→2` and the cache poisoned by `trace(0,1)`, `contains_cycles` returns
`true` (the scan's query `(2,0)` hits the colliding cache key `2`); after
`add_node 3` — a pure addition — the flag is reset, the cache cleared, and
`contains_cycles` returns `false`. -/
theorem cycle_flag_nonmonotone_cex :
    (contains_cycles hId gPoison).1 = true ∧
      (contains_cycles hId
        (add_node (contains_cycles hId gPoison).2 3).2).1 = false := by decide

/-! ## Witnesses: the claim theorems applied at concrete inputs -/

/-- C1 witness: the amended path-validity theorem applied to the two-node
store with edge `0→1` and the successful query `(0,1)`. -/
theorem trace_path_validity_witness :
    EdgesOut hId gLit ∧ CacheOK hId gLit ∧
      (trace hId gLit 0 1).1 = some [0, 1] ∧
      (List.Chain' (fun a b => (gLit.edges (merge_ids hId a b)).isSome = true)
          [0, 1] ∧
        (((load_edges hId gLit [0, 1]).1).isSome = true ↔
          2 ≤ ([0, 1] : List Nat).length)) := by
  have hEO : EdgesOut hId gLit := by
    intro a b hb
    replace hb : b ∈ (if a = 0 then [1] else ([] : List Nat)) := hb
    by_cases ha : a = 0
    · rw [if_pos ha] at hb
      simp at hb
      subst ha
      subst hb
      decide
    · rw [if_neg ha] at hb
      cases hb
  have hCO : CacheOK hId gLit := cacheOK_of_empty hId gLit rfl
  have hp : (trace hId gLit 0 1).1 = some [0, 1] := by decide
  exact ⟨hEO, hCO, hp, trace_path_edges_chain hId gLit 0 1 [0, 1] hEO hCO hp⟩

/-- C2 witness: cache transparency applied to the two-node store with edge
`0→1` and the query `(0,1)`, whose merged key collides with no other
stored pair. -/
theorem cache_transparency_witness :
    CacheOK hId gLit ∧
      (∀ f t, f ∈ gLit.nodes → t ∈ gLit.nodes →
        merge_ids hId f t = merge_ids hId 0 1 →
        uncachedTrace gLit f t = uncachedTrace gLit 0 1) ∧
      (trace hId gLit 0 1).1 = uncachedTrace gLit 0 1 := by
  have hCO : CacheOK hId gLit := cacheOK_of_empty hId gLit rfl
  have hNC : ∀ f t, f ∈ gLit.nodes → t ∈ gLit.nodes →
      merge_ids hId f t = merge_ids hId 0 1 →
      uncachedTrace gLit f t = uncachedTrace gLit 0 1 := by
    intro f t hf ht hk
    replace hf : f ∈ ([0, 1] : List Nat) := hf
    replace ht : t ∈ ([0, 1] : List Nat) := ht
    have hf2 : f = 0 ∨ f = 1 := by simpa using hf
    have ht2 : t = 0 ∨ t = 1 := by simpa using ht
    rcases hf2 with rfl | rfl <;> rcases ht2 with rfl | rfl
    · exact absurd hk (by decide)
    · rfl
    · exact absurd hk (by decide)
    · exact absurd hk (by decide)
  exact ⟨hCO, hNC, trace_cache_transparent hId gLit 0 1 hCO hNC⟩

/-- C3 witness: the trivial self-trace theorem applied to the stored node
`0` of the two-node store (empty cache, clear markers). -/
theorem self_trace_witness :
    (0 ∈ gLit.nodes) ∧ gLit.marked 0 = false ∧
      (gLit.cacheEnabled = true →
        lookupCache (merge_ids hId 0 0) gLit.cache = none) ∧
      ((trace hId gLit 0 0).1 = some [0] ∧
        (load_edges hId gLit [0]).1 = none) :=
  ⟨by decide, rfl, fun _ => rfl,
    trace_self_trivial hId gLit 0 (by decide) rfl (fun _ => rfl)⟩

/-- C5 witness: a duplicate-node insertion and a duplicate-edge insertion
on the two-node store both fail and return the state unchanged. -/
theorem add_fail_state_witness :
    ((add_node gLit 0).1 = false) ∧ (add_node gLit 0).2 = gLit ∧
      ((add_edge hId gLit 0 1 "x").1 = false) ∧
      (add_edge hId gLit 0 1 "x").2 = gLit := by
  have T := add_fail_state hId gLit 0 0 1 "x"
  exact ⟨by decide, T.1 (by decide), by decide, T.2 (by decide)⟩

/-- C6 witness: the identity hash separates `0` and `1`, so the two
orientations get different keys and adding `0→1` leaves the reverse key's
entry untouched. -/
theorem merge_order_sensitive_witness :
    (hId 0 % W ≠ hId 1 % W) ∧
      (merge_ids hId 0 1 ≠ merge_ids hId 1 0 ∧
        ((add_edge hId gLit 0 1 "q").2).edges (merge_ids hId 1 0) =
          gLit.edges (merge_ids hId 1 0)) := by
  have hne : hId 0 % W ≠ hId 1 % W := by decide
  have T := merge_order_sensitive hId 0 1 hne
  exact ⟨hne, T.1, T.2 gLit "q"⟩

/-- C7 witness: the two-cycle store `0⇄1` has a cycle, and after the
addition of node `5` the cycle check still reports `true`. -/
theorem cycle_monotone_witness :
    Inv gCycLit ∧ AllClear gCycLit ∧ HasCycle gCycLit ∧
      (contains_cycles hId
        (applyAdds hId [AddOp.node 5] gCycLit)).1 = true := by
  have hInv : Inv gCycLit := by
    refine ⟨by decide, ?_, ?_⟩
    · intro x y hy
      replace hy :
          y ∈ (if x = 0 then [1] else if x = 1 then [0] else ([] : List Nat)) :=
        hy
      show y ∈ ([0, 1] : List Nat)
      by_cases hx0 : x = 0
      · rw [if_pos hx0] at hy
        simp at hy
        subst hy
        decide
      · rw [if_neg hx0] at hy
        by_cases hx1 : x = 1
        · rw [if_pos hx1] at hy
          simp at hy
          subst hy
          decide
        · rw [if_neg hx1] at hy
          cases hy
    · intro x hx
      replace hx : x ∉ ([0, 1] : List Nat) := hx
      show (if x = 0 then [1] else if x = 1 then [0] else ([] : List Nat)) = []
      have hx0 : x ≠ 0 := fun he => hx (by rw [he]; decide)
      have hx1 : x ≠ 1 := fun he => hx (by rw [he]; decide)
      rw [if_neg hx0, if_neg hx1]
  have hclear : AllClear gCycLit := fun x => rfl
  have hcyc : HasCycle gCycLit := by
    refine ⟨0, 1, by decide, by decide, ?_⟩
    refine Reach.step (fun _ => false) 1 0 rfl (by decide) (by decide) ?_
    exact Reach.done (mset 1 (fun _ => false)) (by decide)
  exact ⟨hInv, hclear, hcyc,
    cycle_monotone hId gCycLit hInv hclear hcyc [AddOp.node 5]⟩

/-- C9 witness: the marker invariant applied to the two-node store with
clear markers, each public operation instantiated. -/
theorem marker_invariant_witness :
    AllClear gLit ∧
      ((∀ fr tgt, AllClear ((trace hId gLit fr tgt).2)) ∧
        (∀ id, AllClear ((add_node gLit id).2)) ∧
        (∀ fr tgt, AllClear ((add_edge hId gLit fr tgt "z").2)) ∧
        (∀ p, AllClear ((load_edges hId gLit p).2)) ∧
        AllClear ((contains_cycles hId gLit).2) ∧
        AllClear ((optimize_trace gLit).2) ∧
        (∀ b, AllClear (toggle_cache gLit b)) ∧
        AllClear (clear_cache gLit)) :=
  ⟨fun _ => rfl, marker_invariant hId gLit (fun _ => rfl) "z"⟩

end YokelGraph
